import Mathlib

/-!
# Verification of `segment-tree.py`

Shallow embedding of the segment-tree implementation (classes `SegmentNode` and
`SegmentTree`) together with proofs of the specification claims about it.

Modelling conventions:
* Python `int` is embedded as `Int`; array/list positions are `Nat`.
* The backing list `self.tree` (a Python list of `SegmentNode`-or-`None`) is
  `Array (Option SegmentNode)`.
* Operations that can raise a Python exception are embedded in `Option`
  (`none` = some exception was raised: `IndexError` on an out-of-bounds list
  read/write, or `AttributeError` from dereferencing a `None` slot).  The
  constructor is embedded in `Except PyError` so that the *kind* of the raised
  exception is visible.
* Recursive traversals take a fuel parameter (`none` on exhaustion); all the
  theorems below supply enough fuel, so exhaustion never shows up in a proved
  `some`-result.
* `math.ceil(math.log(n, 2))` (floating point in CPython) is modelled as the
  exact real-number value `⌈log₂ n⌉`, computed by the structurally recursive
  `ceilLog2` below and proved equal to `Nat.clog 2 n`.  This idealizes the
  program: CPython evaluates `log(n)/log(2)` in IEEE doubles, which lands
  slightly above the integer at `n = 2^29, 2^31, 2^39, …` (the program then
  allocates twice the ideal size) and can land on the integer just below the
  true value at huge `n` such as `2^49 + 1` (the program then under-allocates
  and the build crashes).  The idealization only affects how many unused
  `None` slots follow the logical tree — the logical tree contents, and hence
  query/update behaviour, are identical whenever both allocate enough — but
  it means the exact-size statement proved below describes the intended size
  (the spec's `2 * nextPowerOfTwo(n)`), not the float artefact.
* `int((start+end)/2)` truncates the float quotient toward zero; on the
  non-negative operands that occur here this coincides with `Nat` division.
-/

/-- Exception kinds.  `valueError` and `indexError` are the real Python
exceptions the source can raise (`math.log(0, 2)` raises `ValueError`; an
out-of-range list write raises `IndexError`).  The last three constructors are
modelled from the spec: its error taxonomy names `InvalidInputError`,
`RangeError` and `IndexOutOfRangeError`, classes which the source never
defines nor raises; they are included only so that statements can compare the
code's behaviour against the spec's taxonomy. -/
inductive PyError where
  | valueError
  | indexError
  | invalidInputError
  | rangeError
  | indexOutOfRangeError
  deriving DecidableEq

/-- Embeds `class SegmentNode` (its `__init__` attributes).  The Python
attribute `end` is a Lean keyword and is embedded as `endI`. -/
structure SegmentNode where
  value : Int
  start : Nat
  endI : Nat
  index : Nat
  null_value : Int
  deriving DecidableEq

/-- `SegmentNode.__init__(value, start, end, index)`: stores the four
arguments and sets `null_value = 0`. -/
def SegmentNode.make (value : Int) (start endI index : Nat) : SegmentNode :=
  { value := value, start := start, endI := endI, index := index, null_value := 0 }

/-- `SegmentNode.__radd__(self, other)` with `other : int`:
returns `self.value + other`. -/
def SegmentNode.radd (self : SegmentNode) (other : Int) : Int :=
  self.value + other

/-- `SegmentNode.__add__(self, other)` evaluated at another node:
`self.value + other` is `int + SegmentNode`, which CPython dispatches to
`other.__radd__(self.value)`, i.e. `other.value + self.value`. -/
def SegmentNode.addNode (self other : SegmentNode) : Int :=
  other.radd self.value

/-- Embeds `class SegmentTree`: the backing array `self.tree` and the input
list `self.data`. -/
structure SegmentTree where
  tree : Array (Option SegmentNode)
  data : List Int
  deriving DecidableEq

/-- Reading `self.tree[i]` followed by an attribute access on the result:
`none` when `i` is out of bounds (`IndexError`) or when the slot holds `None`
(`AttributeError` on the attribute access). -/
def getSlot (tree : Array (Option SegmentNode)) (i : Nat) : Option SegmentNode :=
  (tree[i]?).bind id

/-- The list assignment `self.tree[i] = v`: `none` (Python `IndexError`) when
`i` is out of bounds. -/
def setSlot (tree : Array (Option SegmentNode)) (i : Nat) (v : Option SegmentNode) :
    Option (Array (Option SegmentNode)) :=
  if h : i < tree.size then some (tree.set ⟨i, h⟩ v) else none

/-- In-place mutation of the node object stored at position `i` (Python's
`node.value = ...` through the reference aliased by `self.tree[i]`); it cannot
raise, and every call below has `i < tree.size`. -/
def setVal (tree : Array (Option SegmentNode)) (i : Nat) (v : Option SegmentNode) :
    Array (Option SegmentNode) :=
  if h : i < tree.size then tree.set ⟨i, h⟩ v else tree

/-- `SegmentTree.merge(left_node, right_node)` on two node operands (the call
in `build`): `left_node + right_node` dispatches through `__add__`/`__radd__`
to `right_node.value + left_node.value`. -/
def SegmentTree.mergeNodes (left_node right_node : SegmentNode) : Int :=
  left_node.addNode right_node

/-- `SegmentTree.merge(left_node, right_node)` on two `int` operands (the call
in the partial-overlap branch of `query`, whose recursive results are ints):
plain integer addition. -/
def SegmentTree.mergeInts (left_node right_node : Int) : Int :=
  left_node + right_node

/-- `SegmentTree.build(start, end, current_index)` (lines 111-154), with the
backing array threaded explicitly and a fuel argument for the recursion. -/
def SegmentTree.buildGo (data : List Int) (start endI idx : Nat)
    (tree : Array (Option SegmentNode)) (fuel : Nat) :
    Option (Array (Option SegmentNode) × SegmentNode) :=
  match fuel with
  | 0 => none
  | fuel + 1 =>
    if start = endI then
      match data[start]? with
      | none => none
      | some v =>
        let node := SegmentNode.make v start endI idx
        match setSlot tree idx (some node) with
        | none => none
        | some tree1 => some (tree1, node)
    else
      let midpoint := (start + endI) / 2
      match SegmentTree.buildGo data start midpoint (idx * 2 + 1) tree fuel with
      | none => none
      | some (tree1, leftNode) =>
        match SegmentTree.buildGo data (midpoint + 1) endI (idx * 2 + 2) tree1 fuel with
        | none => none
        | some (tree2, rightNode) =>
          let node :=
            SegmentNode.make (SegmentTree.mergeNodes leftNode rightNode) start endI idx
          match setSlot tree2 idx (some node) with
          | none => none
          | some tree3 => some (tree3, node)

/-- Fuel-bounded search for the least `k ≥` the accumulator with `n ≤ 2 ^ k`. -/
def ceilLog2Go : Nat → Nat → Nat → Nat
  | 0, _, k => k
  | fuel + 1, n, k => if n ≤ 2 ^ k then k else ceilLog2Go fuel n (k + 1)

/-- `⌈log₂ n⌉` for `n ≥ 1` (proved equal to `Nat.clog 2 n` below); structurally
recursive so that concrete instances evaluate. -/
def ceilLog2 (n : Nat) : Nat :=
  ceilLog2Go n n 0

/-- `SegmentTree.__init__(data)` (lines 92-109): allocates
`[None] * 2 * int(math.pow(2, math.ceil(math.log(len(data), 2))))`, stores
`data`, and runs the recursive build from `(0, len(data)-1, 0)`.
`math.log(0, 2)` raises `ValueError` (math domain error), so the empty list is
rejected with `PyError.valueError` before anything is allocated.

The allocation size uses the exact value `⌈log₂ n⌉` (`ceilLog2`), the size the
code's own comment and the spec intend (`2 * nextPowerOfTwo(n)`).  The actual
CPython expression computes `log(n)/log(2)` in IEEE doubles and deviates from
this at power-of-two boundaries: `math.log(2^29, 2) = 29.000000000000004`, so
at `n = 2^29` (likewise `2^31, 2^39, …`) the running program allocates
`2 * 2^30` — twice this size — and at huge inputs such as `n = 2^49 + 1` the
float rounds down to `49.0` and the program under-allocates, crashing the
build.  That floating-point slip is exactly the hazard the spec's design notes
tell reimplementers to remove by switching to integer bit-manipulation. -/
def SegmentTree.init (data : List Int) : Except PyError SegmentTree :=
  if data.length = 0 then Except.error PyError.valueError
  else
    let tree0 : Array (Option SegmentNode) := mkArray (2 * 2 ^ ceilLog2 data.length) none
    match SegmentTree.buildGo data 0 (data.length - 1) 0 tree0 data.length with
    | none => Except.error PyError.indexError
    | some (tree1, _) => Except.ok { tree := tree1, data := data }

/-- `SegmentTree.query(self, node, start, end)` (lines 156-206).  `start`/`end`
are the query bounds (arbitrary caller-supplied ints); the recursion reads
child nodes from the backing array through `node.index`. -/
def SegmentTree.query (tree : Array (Option SegmentNode)) (node : SegmentNode)
    (start endQ : Int) (fuel : Nat) : Option Int :=
  match fuel with
  | 0 => none
  | fuel + 1 =>
    if start ≤ (node.start : Int) ∧ endQ ≥ (node.endI : Int) then some node.value
    else if (node.endI : Int) < start ∨ (node.start : Int) > endQ then some node.null_value
    else
      match getSlot tree (node.index * 2 + 1) with
      | none => none
      | some leftNode =>
        match SegmentTree.query tree leftNode start endQ fuel with
        | none => none
        | some leftVal =>
          match getSlot tree (node.index * 2 + 2) with
          | none => none
          | some rightNode =>
            match SegmentTree.query tree rightNode start endQ fuel with
            | none => none
            | some rightVal => some (SegmentTree.mergeInts leftVal rightVal)

/-- `SegmentTree.update(self, node, data_index, difference)` (lines 257-287):
outside the node's interval it is a silent no-op (`return` with no mutation);
otherwise it adds `difference` to the node's value in place and, when the node
is not a leaf, recurses into both children. -/
def SegmentTree.update (tree : Array (Option SegmentNode)) (node : SegmentNode)
    (data_index difference : Int) (fuel : Nat) : Option (Array (Option SegmentNode)) :=
  match fuel with
  | 0 => none
  | fuel + 1 =>
    if data_index < (node.start : Int) ∨ data_index > (node.endI : Int) then some tree
    else
      let tree1 := setVal tree node.index (some { node with value := node.value + difference })
      if node.start = node.endI then some tree1
      else
        match getSlot tree1 (node.index * 2 + 1) with
        | none => none
        | some leftNode =>
          match SegmentTree.update tree1 leftNode data_index difference fuel with
          | none => none
          | some tree2 =>
            match getSlot tree2 (node.index * 2 + 2) with
            | none => none
            | some rightNode => SegmentTree.update tree2 rightNode data_index difference fuel

/-- The caller pattern `tree.query(tree.tree[0], lo, hi)` used by the source's
`__main__` block (fetch the root, then run the recursive query). -/
def SegmentTree.queryRoot (t : SegmentTree) (lo hi : Int) : Option Int :=
  match getSlot t.tree 0 with
  | none => none
  | some root => SegmentTree.query t.tree root lo hi t.data.length

/-- The caller pattern `tree.update(tree.tree[0], i, d)`: fetch the root, then
run the recursive point update, keeping `self.data` (which `update` never
touches) unchanged. -/
def SegmentTree.updateRoot (t : SegmentTree) (i d : Int) : Option SegmentTree :=
  match getSlot t.tree 0 with
  | none => none
  | some root =>
    match SegmentTree.update t.tree root i d t.data.length with
    | none => none
    | some tree1 => some { tree := tree1, data := t.data }

/-! ## Reference aggregates (linear scans) -/

/-- Linear scan: `data[s] + data[s+1] + ⋯ + data[s+len-1]` (missing indices
contribute `0`). -/
def sliceSumGo (data : List Int) : Nat → Nat → Int
  | _, 0 => 0
  | s, len + 1 => data.getD s 0 + sliceSumGo data (s + 1) len

/-- Linear-scan sum of `data[s..e]` (inclusive bounds). -/
def sliceSum (data : List Int) (s e : Nat) : Int :=
  sliceSumGo data s (e + 1 - s)

/-- Linear scan over positions `s, …, s+len-1` keeping only those inside the
query interval `[lo, hi]`. -/
def subSumGo (data : List Int) (lo hi : Int) : Nat → Nat → Int
  | _, 0 => 0
  | s, len + 1 =>
    (if lo ≤ (s : Int) ∧ (s : Int) ≤ hi then data.getD s 0 else 0) +
      subSumGo data lo hi (s + 1) len

/-- Linear-scan sum of `data[j]` over `j ∈ [s, e] ∩ [lo, hi]`: the reference
aggregate for a query `[lo, hi]` against the subtree covering `[s, e]`. -/
def subSum (data : List Int) (s e : Nat) (lo hi : Int) : Int :=
  subSumGo data lo hi s (e + 1 - s)

/-! ## Structural predicates -/

/-- `Desc a j`: array position `j` lies in the (implicit, heap-indexed)
subtree rooted at position `a`; in 1-based indexing, repeatedly halving
`j + 1` reaches `a + 1`. -/
def Desc (a j : Nat) : Prop :=
  ∃ k, (j + 1) / 2 ^ k = a + 1

/-- `Covers s e idx s2 e2 j`: the build recursion started on interval
`[s, e]` at array position `idx` has a recursive call on interval `[s2, e2]`
at position `j`. -/
inductive Covers : Nat → Nat → Nat → Nat → Nat → Nat → Prop where
  | here (s e idx : Nat) : Covers s e idx s e idx
  | left (s e idx s2 e2 j : Nat) (hse : s < e)
      (h : Covers s ((s + e) / 2) (idx * 2 + 1) s2 e2 j) : Covers s e idx s2 e2 j
  | right (s e idx s2 e2 j : Nat) (hse : s < e)
      (h : Covers ((s + e) / 2 + 1) e (idx * 2 + 2) s2 e2 j) : Covers s e idx s2 e2 j

/-- Position `j` is used by the build recursion on `[s, e]` rooted at `idx`. -/
def UsedIn (s e idx j : Nat) : Prop :=
  ∃ s2 e2, Covers s e idx s2 e2 j

/-- The subtree rooted at array position `idx` correctly represents the
interval `[s, e]` of `data`: the slot holds the node built for `[s, e]` with
the interval's sum as value, and (for a non-trivial interval) both children
recursively do as well. -/
inductive Stores (data : List Int) (tree : Array (Option SegmentNode)) :
    Nat → Nat → Nat → Prop where
  | leaf (s idx : Nat) (hlen : s < data.length)
      (hslot : getSlot tree idx = some (SegmentNode.make (sliceSum data s s) s s idx)) :
      Stores data tree s s idx
  | node (s e idx : Nat) (hse : s < e) (hlen : e < data.length)
      (hslot : getSlot tree idx = some (SegmentNode.make (sliceSum data s e) s e idx))
      (hleft : Stores data tree s ((s + e) / 2) (idx * 2 + 1))
      (hright : Stores data tree ((s + e) / 2 + 1) e (idx * 2 + 2)) :
      Stores data tree s e idx

/-- Well-formed tree state: `data` is the current logical contents (the
original input with all the updates so far applied), the subtree at the root
represents `[0, n-1]`, every populated slot belongs to the build recursion,
and `t.data` still has the original length. -/
def WF (t : SegmentTree) (data : List Int) : Prop :=
  1 ≤ data.length ∧ t.data.length = data.length ∧
    Stores data t.tree 0 (data.length - 1) 0 ∧
    ∀ j, (getSlot t.tree j).isSome = true → UsedIn 0 (data.length - 1) 0 j

/-- Tree states reachable by `SegmentTree(data)` followed by any sequence of
valid point updates; the `List Int` component tracks the logical data (the
input with all updates applied). -/
inductive Reachable : SegmentTree → List Int → Prop where
  | base (data : List Int) (t : SegmentTree) (h : SegmentTree.init data = Except.ok t) :
      Reachable t data
  | step (t : SegmentTree) (data : List Int) (i : Nat) (d : Int) (t2 : SegmentTree)
      (h : Reachable t data) (hi : i < data.length)
      (hupd : t.updateRoot i d = some t2) :
      Reachable t2 (data.set i (data.getD i 0 + d))

/-- Frame relation of a point update at data index `k`: empty and
out-of-range slots are untouched, and every stored node keeps its `start`,
`end`, `index` and `null_value` fields; its `value` may change only if the
node's interval contains `k`. -/
def PointFrame (k : Nat) (t1 t2 : Array (Option SegmentNode)) : Prop :=
  (∀ j : Nat, t1[j]? = none → t2[j]? = none) ∧
  (∀ j : Nat, t1[j]? = some none → t2[j]? = some none) ∧
  (∀ (j : Nat) (nd : SegmentNode), t1[j]? = some (some nd) →
    ∃ nd2 : SegmentNode, t2[j]? = some (some nd2) ∧
      nd2.start = nd.start ∧ nd2.endI = nd.endI ∧ nd2.index = nd.index ∧
      nd2.null_value = nd.null_value ∧
      (¬ (nd.start ≤ k ∧ k ≤ nd.endI) → nd2.value = nd.value))

/-- The node-level invariants claimed by the spec, for every populated slot:
the stored position matches `index`; a leaf (the source's docstring defines a
leaf by `start == end`) holds the raw data element and has no children; an
internal node has both children populated and its value is their `merge`. -/
def TreeInvariant (tree : Array (Option SegmentNode)) (data : List Int) : Prop :=
  ∀ idx node, getSlot tree idx = some node →
    node.index = idx ∧ node.start ≤ node.endI ∧ node.endI < data.length ∧
    (node.start = node.endI →
      node.value = data.getD node.start 0 ∧
      getSlot tree (idx * 2 + 1) = none ∧ getSlot tree (idx * 2 + 2) = none) ∧
    (node.start ≠ node.endI →
      ∃ l r, getSlot tree (idx * 2 + 1) = some l ∧ getSlot tree (idx * 2 + 2) = some r ∧
        node.value = SegmentTree.mergeNodes l r)

/-- The dataset of the source's `__main__` demo block. -/
def demoData : List Int := [-1, 3, 4, 0, 2, 1]

/-- The tree the source's `__main__` block builds (`SegmentTree(data)`). -/
def demoTree : SegmentTree :=
  match SegmentTree.init demoData with
  | Except.ok t => t
  | Except.error _ => { tree := #[], data := [] }

/-- The demo tree after `tree.update(tree.tree[0], 3, -1)`. -/
def demoTree2 : SegmentTree :=
  match demoTree.updateRoot 3 (-1) with
  | some t => t
  | none => demoTree

/-! ## Array-slot lemmas -/

theorem size_setVal (tree : Array (Option SegmentNode)) (i : Nat) (v : Option SegmentNode) :
    (setVal tree i v).size = tree.size := by
  unfold setVal
  split
  · exact Array.size_set tree _ v
  · rfl

theorem getElem?_setVal_self (tree : Array (Option SegmentNode)) (i : Nat)
    (v : Option SegmentNode) (h : i < tree.size) : (setVal tree i v)[i]? = some v := by
  unfold setVal
  rw [dif_pos h, Array.get?_set]
  simp

theorem getElem?_setVal_ne (tree : Array (Option SegmentNode)) (i j : Nat)
    (v : Option SegmentNode) (hne : j ≠ i) : (setVal tree i v)[j]? = tree[j]? := by
  unfold setVal
  split
  · rw [Array.get?_set]
    exact if_neg (fun hh => hne hh.symm)
  · rfl

theorem setSlot_eq (tree : Array (Option SegmentNode)) (i : Nat) (v : Option SegmentNode)
    (h : i < tree.size) : setSlot tree i v = some (setVal tree i v) := by
  unfold setSlot setVal
  rw [dif_pos h, dif_pos h]

theorem getSlot_setVal_self (tree : Array (Option SegmentNode)) (i : Nat)
    (v : Option SegmentNode) (h : i < tree.size) : getSlot (setVal tree i v) i = v := by
  unfold getSlot
  rw [getElem?_setVal_self tree i v h]
  rfl

theorem getSlot_setVal_ne (tree : Array (Option SegmentNode)) (i j : Nat)
    (v : Option SegmentNode) (hne : j ≠ i) : getSlot (setVal tree i v) j = getSlot tree j := by
  unfold getSlot
  rw [getElem?_setVal_ne tree i j v hne]

theorem getSlot_congr (t1 t2 : Array (Option SegmentNode)) (j : Nat)
    (h : t2[j]? = t1[j]?) : getSlot t2 j = getSlot t1 j := by
  unfold getSlot
  rw [h]

theorem getElem?_mkArray_lt (n i : Nat) (h : i < n) :
    (mkArray n (none : Option SegmentNode))[i]? = some none := by
  simp [Array.getElem?_eq_getElem, h]

theorem getElem?_mkArray_ge (n i : Nat) (h : n ≤ i) :
    (mkArray n (none : Option SegmentNode))[i]? = none := by
  have : ¬ i < (mkArray n (none : Option SegmentNode)).size := by
    simp
    omega
  simp [Array.getElem?_eq_none_iff] at this ⊢
  omega

/-! ## Linear-scan lemmas -/

theorem sliceSumGo_add (data : List Int) (s a b : Nat) :
    sliceSumGo data s (a + b) = sliceSumGo data s a + sliceSumGo data (s + a) b := by
  induction a generalizing s with
  | zero => simp [sliceSumGo]
  | succ a ih =>
    have h1 : s + (a + 1) = (s + 1) + a := by omega
    rw [Nat.succ_add, sliceSumGo, sliceSumGo, ih (s + 1), h1]
    ring

theorem subSumGo_add (data : List Int) (lo hi : Int) (s a b : Nat) :
    subSumGo data lo hi s (a + b) = subSumGo data lo hi s a + subSumGo data lo hi (s + a) b := by
  induction a generalizing s with
  | zero => simp [subSumGo]
  | succ a ih =>
    have h1 : s + (a + 1) = (s + 1) + a := by omega
    rw [Nat.succ_add, subSumGo, subSumGo, ih (s + 1), h1]
    ring

theorem sliceSum_leaf (data : List Int) (s : Nat) : sliceSum data s s = data.getD s 0 := by
  unfold sliceSum
  have : s + 1 - s = 1 := by omega
  rw [this]
  simp [sliceSumGo]

theorem sliceSum_split (data : List Int) (s m e : Nat) (h1 : s ≤ m) (h2 : m < e) :
    sliceSum data s e = sliceSum data s m + sliceSum data (m + 1) e := by
  unfold sliceSum
  have ha : e + 1 - s = (m + 1 - s) + (e - m) := by omega
  have hb : s + (m + 1 - s) = m + 1 := by omega
  have hc : e + 1 - (m + 1) = e - m := by omega
  rw [ha, sliceSumGo_add, hb, hc]

theorem subSum_split (data : List Int) (s m e : Nat) (lo hi : Int) (h1 : s ≤ m) (h2 : m < e) :
    subSum data s e lo hi = subSum data s m lo hi + subSum data (m + 1) e lo hi := by
  unfold subSum
  have ha : e + 1 - s = (m + 1 - s) + (e - m) := by omega
  have hb : s + (m + 1 - s) = m + 1 := by omega
  have hc : e + 1 - (m + 1) = e - m := by omega
  rw [ha, subSumGo_add, hb, hc]

theorem subSumGo_zero_of_hi_lt (data : List Int) (lo hi : Int) (s len : Nat)
    (h : hi < (s : Int)) : subSumGo data lo hi s len = 0 := by
  induction len generalizing s with
  | zero => rfl
  | succ len ih =>
    rw [subSumGo, if_neg, ih (s + 1) (by push_cast; omega), add_zero]
    omega

theorem subSumGo_zero_of_lt_lo (data : List Int) (lo hi : Int) (s len : Nat)
    (h : (s : Int) + len ≤ lo) : subSumGo data lo hi s len = 0 := by
  induction len generalizing s with
  | zero => rfl
  | succ len ih =>
    rw [subSumGo, if_neg, ih (s + 1) (by push_cast at h ⊢; omega), add_zero]
    omega

theorem subSumGo_full (data : List Int) (lo hi : Int) (s len : Nat)
    (hlo : lo ≤ (s : Int)) (hhi : (s : Int) + len ≤ hi + 1) :
    subSumGo data lo hi s len = sliceSumGo data s len := by
  induction len generalizing s with
  | zero => rfl
  | succ len ih =>
    rw [subSumGo, sliceSumGo, if_pos, ih (s + 1) (by push_cast at hlo ⊢; omega)
      (by push_cast at hhi ⊢; omega)]
    constructor
    · exact hlo
    · push_cast at hhi ⊢
      omega

/-- `subSum` over a subtree interval contained in the query interval is the
plain slice sum (the full-containment branch of `query`). -/
theorem subSum_of_contained (data : List Int) (s e : Nat) (lo hi : Int)
    (hse : s ≤ e) (hlo : lo ≤ (s : Int)) (hhi : (e : Int) ≤ hi) :
    subSum data s e lo hi = sliceSum data s e := by
  unfold subSum sliceSum
  apply subSumGo_full
  · exact hlo
  · omega

/-- `subSum` over a subtree interval disjoint from the query interval is `0`
(the no-overlap branch of `query`). -/
theorem subSum_of_disjoint (data : List Int) (s e : Nat) (lo hi : Int)
    (h : (e : Int) < lo ∨ (s : Int) > hi) : subSum data s e lo hi = 0 := by
  unfold subSum
  by_cases hse : s ≤ e
  · rcases h with h | h
    · apply subSumGo_zero_of_lt_lo
      omega
    · apply subSumGo_zero_of_hi_lt
      omega
  · have h0 : e + 1 - s = 0 := by omega
    rw [h0]
    rfl

/-! ## Effect of a point write on the reference sums -/

theorem getD_set_self (data : List Int) (k : Nat) (v : Int) (h : k < data.length) :
    (data.set k v).getD k 0 = v := by
  simp [List.getD_eq_getElem?_getD, List.getElem?_set_self, h]

theorem getD_set_ne (data : List Int) (k j : Nat) (v : Int) (h : k ≠ j) :
    (data.set k v).getD j 0 = data.getD j 0 := by
  simp [List.getD_eq_getElem?_getD, List.getElem?_set_ne h]

theorem subSumGo_set (data : List Int) (k : Nat) (d : Int) (hk : k < data.length)
    (lo hi : Int) (s len : Nat) :
    subSumGo (data.set k (data.getD k 0 + d)) lo hi s len =
      subSumGo data lo hi s len +
        (if s ≤ k ∧ k < s + len ∧ lo ≤ (k : Int) ∧ (k : Int) ≤ hi then d else 0) := by
  induction len generalizing s with
  | zero =>
    rw [subSumGo, subSumGo, if_neg (by omega)]
    omega
  | succ len ih =>
    rw [subSumGo, subSumGo, ih (s + 1)]
    by_cases hsk : s = k
    · subst hsk
      rw [getD_set_self data s _ hk]
      split_ifs <;> omega
    · rw [getD_set_ne data k s _ (fun hh => hsk hh.symm)]
      split_ifs <;> omega

theorem sliceSumGo_set (data : List Int) (k : Nat) (d : Int) (hk : k < data.length)
    (s len : Nat) :
    sliceSumGo (data.set k (data.getD k 0 + d)) s len =
      sliceSumGo data s len + (if s ≤ k ∧ k < s + len then d else 0) := by
  induction len generalizing s with
  | zero =>
    rw [sliceSumGo, sliceSumGo, if_neg (by omega)]
    omega
  | succ len ih =>
    rw [sliceSumGo, sliceSumGo, ih (s + 1)]
    by_cases hsk : s = k
    · subst hsk
      rw [getD_set_self data s _ hk]
      split_ifs <;> omega
    · rw [getD_set_ne data k s _ (fun hh => hsk hh.symm)]
      split_ifs <;> omega

theorem sliceSum_set_mem (data : List Int) (k : Nat) (d : Int) (hk : k < data.length)
    (s e : Nat) (h1 : s ≤ k) (h2 : k ≤ e) :
    sliceSum (data.set k (data.getD k 0 + d)) s e = sliceSum data s e + d := by
  unfold sliceSum
  rw [sliceSumGo_set data k d hk, if_pos (by omega)]

theorem sliceSum_set_out (data : List Int) (k : Nat) (d : Int) (hk : k < data.length)
    (s e : Nat) (h : k < s ∨ e < k) :
    sliceSum (data.set k (data.getD k 0 + d)) s e = sliceSum data s e := by
  unfold sliceSum
  rw [sliceSumGo_set data k d hk, if_neg (by omega), add_zero]

theorem subSum_set (data : List Int) (k : Nat) (d : Int) (hk : k < data.length)
    (s e : Nat) (lo hi : Int) :
    subSum (data.set k (data.getD k 0 + d)) s e lo hi =
      subSum data s e lo hi +
        (if s ≤ k ∧ k ≤ e ∧ lo ≤ (k : Int) ∧ (k : Int) ≤ hi then d else 0) := by
  unfold subSum
  rw [subSumGo_set data k d hk]
  split_ifs <;> omega

/-! ## The whole-list sum -/

theorem sliceSumGo_cons (a : Int) (data : List Int) (s len : Nat) :
    sliceSumGo (a :: data) (s + 1) len = sliceSumGo data s len := by
  induction len generalizing s with
  | zero => rfl
  | succ len ih =>
    rw [sliceSumGo, sliceSumGo, ih (s + 1)]
    rfl

theorem sliceSumGo_all (data : List Int) : sliceSumGo data 0 data.length = data.sum := by
  induction data with
  | nil => rfl
  | cons a l ih =>
    rw [List.length_cons, sliceSumGo, sliceSumGo_cons a l 0 l.length, ih]
    rfl

theorem sliceSum_all (data : List Int) (h : 1 ≤ data.length) :
    sliceSum data 0 (data.length - 1) = data.sum := by
  unfold sliceSum
  have h1 : data.length - 1 + 1 - 0 = data.length := by omega
  rw [h1, sliceSumGo_all]

/-- For in-range query bounds, the clipped scan over the whole data range is
the plain linear scan of `data[lo..hi]`. -/
theorem subSum_valid (data : List Int) (e lo hi : Nat) (h1 : lo ≤ hi) (h2 : hi ≤ e) :
    subSum data 0 e (lo : Int) (hi : Int) = sliceSum data lo hi := by
  unfold subSum sliceSum
  have hsplit : e + 1 - 0 = lo + ((hi + 1 - lo) + (e - hi)) := by omega
  rw [hsplit, subSumGo_add, subSumGo_add]
  have hz1 : subSumGo data (lo : Int) (hi : Int) 0 lo = 0 :=
    subSumGo_zero_of_lt_lo data _ _ 0 lo (by omega)
  have hmid : 0 + lo = lo := by omega
  have hz2 : subSumGo data (lo : Int) (hi : Int) (lo + (hi + 1 - lo)) (e - hi) = 0 :=
    subSumGo_zero_of_hi_lt data _ _ _ _ (by omega)
  have hfull : subSumGo data (lo : Int) (hi : Int) lo (hi + 1 - lo) =
      sliceSumGo data lo (hi + 1 - lo) :=
    subSumGo_full data _ _ lo _ (by omega) (by omega)
  rw [hmid, hz1, hz2, hfull, add_zero, zero_add]

/-! ## `ceilLog2` agrees with `Nat.clog 2` -/

theorem ceilLog2Go_eq_clog (n : Nat) :
    ∀ fuel k, k ≤ Nat.clog 2 n → Nat.clog 2 n ≤ k + fuel → ceilLog2Go fuel n k = Nat.clog 2 n := by
  intro fuel
  induction fuel with
  | zero =>
    intro k h1 h2
    rw [ceilLog2Go]
    omega
  | succ fuel ih =>
    intro k h1 h2
    rw [ceilLog2Go]
    by_cases hle : n ≤ 2 ^ k
    · rw [if_pos hle]
      have := (@Nat.le_pow_iff_clog_le 2 (by norm_num) n k).mp hle
      omega
    · rw [if_neg hle]
      apply ih
      · by_contra hc
        push_neg at hc
        exact hle (le_trans (Nat.le_pow_clog (by norm_num) n)
          (Nat.pow_le_pow_right (by norm_num) (by omega)))
      · omega

theorem ceilLog2_eq_clog (n : Nat) : ceilLog2 n = Nat.clog 2 n := by
  unfold ceilLog2
  apply ceilLog2Go_eq_clog
  · exact Nat.zero_le _
  · have := (@Nat.le_pow_iff_clog_le 2 (by norm_num) n n).mp (Nat.le_of_lt (Nat.lt_two_pow n))
    omega

/-! ## Heap-index (`Desc`) lemmas -/

theorem desc_refl (a : Nat) : Desc a a :=
  ⟨0, by simp⟩

theorem desc_left (a : Nat) : Desc a (a * 2 + 1) :=
  ⟨1, by rw [pow_one]; omega⟩

theorem desc_right (a : Nat) : Desc a (a * 2 + 2) :=
  ⟨1, by rw [pow_one]; omega⟩

theorem desc_trans (a b c : Nat) (h1 : Desc a b) (h2 : Desc b c) : Desc a c := by
  obtain ⟨k1, hk1⟩ := h1
  obtain ⟨k2, hk2⟩ := h2
  exact ⟨k2 + k1, by rw [pow_add, ← Nat.div_div_eq_div_mul, hk2, hk1]⟩

theorem desc_le (a j : Nat) (h : Desc a j) : a ≤ j := by
  obtain ⟨k, hk⟩ := h
  have := Nat.div_le_self (j + 1) (2 ^ k)
  omega

theorem desc_sibling (a c : Nat) (h1 : Desc (a * 2 + 1) c) (h2 : Desc (a * 2 + 2) c) : False := by
  obtain ⟨j, hj⟩ := h1
  obtain ⟨k, hk⟩ := h2
  have two_le : ∀ m : Nat, 0 < m → (2 : Nat) ≤ 2 ^ m := fun m hm =>
    le_trans (by norm_num) (Nat.pow_le_pow_right (by norm_num) hm)
  rcases le_total j k with hjk | hjk
  · have hexp : j + (k - j) = k := by omega
    have hdd : (c + 1) / 2 ^ k = ((c + 1) / 2 ^ j) / 2 ^ (k - j) := by
      rw [Nat.div_div_eq_div_mul, ← pow_add, hexp]
    rw [hj] at hdd
    rcases Nat.eq_zero_or_pos (k - j) with h0 | h0
    · rw [h0] at hdd
      simp at hdd
      omega
    · have hle : (a * 2 + 1 + 1) / 2 ^ (k - j) ≤ (a * 2 + 1 + 1) / 2 :=
        Nat.div_le_div_left (two_le _ h0) (by norm_num)
      omega
  · have hexp : k + (j - k) = j := by omega
    have hdd : (c + 1) / 2 ^ j = ((c + 1) / 2 ^ k) / 2 ^ (j - k) := by
      rw [Nat.div_div_eq_div_mul, ← pow_add, hexp]
    rw [hk] at hdd
    rcases Nat.eq_zero_or_pos (j - k) with h0 | h0
    · rw [h0] at hdd
      simp at hdd
      omega
    · have hle : (a * 2 + 2 + 1) / 2 ^ (j - k) ≤ (a * 2 + 2 + 1) / 2 :=
        Nat.div_le_div_left (two_le _ h0) (by norm_num)
      omega

theorem not_desc_left (a j : Nat) (h : ¬ Desc a j) : ¬ Desc (a * 2 + 1) j :=
  fun hh => h (desc_trans _ _ _ (desc_left a) hh)

theorem not_desc_right (a j : Nat) (h : ¬ Desc a j) : ¬ Desc (a * 2 + 2) j :=
  fun hh => h (desc_trans _ _ _ (desc_right a) hh)

/-! ## `Covers` / `UsedIn` lemmas -/

theorem covers_desc (s e idx s2 e2 j : Nat) (h : Covers s e idx s2 e2 j) : Desc idx j := by
  induction h with
  | here => exact desc_refl _
  | left _ _ _ _ _ _ _ _ ih => exact desc_trans _ _ _ (desc_left _) ih
  | right _ _ _ _ _ _ _ _ ih => exact desc_trans _ _ _ (desc_right _) ih

theorem usedIn_here (s e idx : Nat) : UsedIn s e idx idx :=
  ⟨s, e, Covers.here s e idx⟩

theorem usedIn_left (s e idx j : Nat) (hse : s < e)
    (h : UsedIn s ((s + e) / 2) (idx * 2 + 1) j) : UsedIn s e idx j := by
  obtain ⟨s2, e2, hc⟩ := h
  exact ⟨s2, e2, Covers.left s e idx s2 e2 j hse hc⟩

theorem usedIn_right (s e idx j : Nat) (hse : s < e)
    (h : UsedIn ((s + e) / 2 + 1) e (idx * 2 + 2) j) : UsedIn s e idx j := by
  obtain ⟨s2, e2, hc⟩ := h
  exact ⟨s2, e2, Covers.right s e idx s2 e2 j hse hc⟩

theorem usedIn_desc (s e idx j : Nat) (h : UsedIn s e idx j) : Desc idx j := by
  obtain ⟨s2, e2, hc⟩ := h
  exact covers_desc _ _ _ _ _ _ hc

theorem not_usedIn_left (s e idx j : Nat) (hse : s < e) (h : ¬ UsedIn s e idx j) :
    ¬ UsedIn s ((s + e) / 2) (idx * 2 + 1) j :=
  fun hh => h (usedIn_left s e idx j hse hh)

theorem not_usedIn_right (s e idx j : Nat) (hse : s < e) (h : ¬ UsedIn s e idx j) :
    ¬ UsedIn ((s + e) / 2 + 1) e (idx * 2 + 2) j :=
  fun hh => h (usedIn_right s e idx j hse hh)

/-! ## `Stores` lemmas -/

theorem stores_slot (data : List Int) (tree : Array (Option SegmentNode)) (s e idx : Nat)
    (h : Stores data tree s e idx) :
    getSlot tree idx = some (SegmentNode.make (sliceSum data s e) s e idx) := by
  cases h with
  | leaf _ _ _ hslot => exact hslot
  | node _ _ _ _ _ hslot _ _ => exact hslot

theorem stores_bounds (data : List Int) (tree : Array (Option SegmentNode)) (s e idx : Nat)
    (h : Stores data tree s e idx) : s ≤ e ∧ e < data.length := by
  cases h with
  | leaf _ _ hlen _ => exact ⟨le_refl _, hlen⟩
  | node _ _ _ hse hlen _ _ _ => exact ⟨le_of_lt hse, hlen⟩

theorem getSlot_lt_size (tree : Array (Option SegmentNode)) (idx : Nat) (nd : SegmentNode)
    (h : getSlot tree idx = some nd) : idx < tree.size := by
  by_contra hc
  unfold getSlot at h
  rw [Array.getElem?_eq_none_iff.mpr (by omega)] at h
  simp at h

/-- A `Stores` fact survives to another array that agrees on every slot in the
heap subtree below `idx`. -/
theorem stores_transfer (data : List Int) (t1 t2 : Array (Option SegmentNode)) (s e idx : Nat)
    (h : Stores data t1 s e idx)
    (hag : ∀ j, Desc idx j → getSlot t2 j = getSlot t1 j) :
    Stores data t2 s e idx := by
  induction h generalizing t2 with
  | leaf s idx hlen hslot =>
    exact Stores.leaf s idx hlen ((hag idx (desc_refl idx)).trans hslot)
  | node s e idx hse hlen hslot hl hr ihl ihr =>
    refine Stores.node s e idx hse hlen ((hag idx (desc_refl idx)).trans hslot)
      (ihl t2 ?_) (ihr t2 ?_)
    · intro j hdj
      exact hag j (desc_trans _ _ _ (desc_left idx) hdj)
    · intro j hdj
      exact hag j (desc_trans _ _ _ (desc_right idx) hdj)

/-- A `Stores` fact survives a point write to the data at an index outside the
subtree's interval. -/
theorem stores_set_out (data : List Int) (tree : Array (Option SegmentNode)) (k : Nat)
    (d : Int) (hk : k < data.length) (s e idx : Nat) (h : Stores data tree s e idx) :
    (k < s ∨ e < k) → Stores (data.set k (data.getD k 0 + d)) tree s e idx := by
  induction h with
  | leaf s idx hlen hslot =>
    intro hout
    apply Stores.leaf s idx (by rw [List.length_set]; exact hlen)
    rw [sliceSum_set_out data k d hk s s (by omega)]
    exact hslot
  | node s e idx hse hlen hslot hl hr ihl ihr =>
    intro hout
    apply Stores.node s e idx hse (by rw [List.length_set]; exact hlen)
    · rw [sliceSum_set_out data k d hk s e hout]
      exact hslot
    · exact ihl (by omega)
    · exact ihr (by omega)

/-! ## Correctness of `build` -/


/-- Main build lemma: with enough fuel and an array large enough for the
subtree (the `(idx+2)·2^⌈log₂ L⌉ ≤ size` invariant), `build` succeeds,
returns the node for `[s, e]`, establishes `Stores`, preserves the array
size, and writes only to slots used by its own recursion. -/
theorem buildGo_spec (data : List Int) :
    ∀ fuel s e idx (tree : Array (Option SegmentNode)),
      s ≤ e → e < data.length → e - s < fuel →
      (idx + 2) * 2 ^ Nat.clog 2 (e - s + 1) ≤ tree.size →
      ∃ tree3,
        SegmentTree.buildGo data s e idx tree fuel =
          some (tree3, SegmentNode.make (sliceSum data s e) s e idx) ∧
        tree3.size = tree.size ∧
        Stores data tree3 s e idx ∧
        (∀ j, ¬ UsedIn s e idx j → tree3[j]? = tree[j]?) := by
  intro fuel
  induction fuel with
  | zero =>
    intro s e idx tree h1 h2 h3 h4
    omega
  | succ fuel ih =>
    intro s e idx tree h1 h2 h3 h4
    have h2pow : 1 ≤ 2 ^ Nat.clog 2 (e - s + 1) := Nat.one_le_pow _ _ (by norm_num)
    have hidx : idx < tree.size := by
      have hx : idx + 2 ≤ (idx + 2) * 2 ^ Nat.clog 2 (e - s + 1) :=
        Nat.le_mul_of_pos_right _ (by omega)
      omega
    by_cases hse : s = e
    · subst hse
      have hget : data[s]? = some (data.getD s 0) := by
        rw [List.getElem?_eq_getElem h2, List.getD_eq_getElem?_getD,
          List.getElem?_eq_getElem h2]
        rfl
      refine ⟨setVal tree idx (some (SegmentNode.make (sliceSum data s s) s s idx)),
        ?_, size_setVal tree idx _, ?_, ?_⟩
      · simp only [SegmentTree.buildGo, eq_self_iff_true, if_true, hget, sliceSum_leaf,
          setSlot_eq tree idx _ hidx]
      · exact Stores.leaf s idx h2 (getSlot_setVal_self tree idx _ hidx)
      · intro j hj
        exact getElem?_setVal_ne tree idx j _
          (fun hh => hj (by rw [hh]; exact usedIn_here s s idx))
    · have hslt : s < e := by omega
      have hm1 : s ≤ (s + e) / 2 := by omega
      have hm2 : (s + e) / 2 < e := by omega
      have hclog : Nat.clog 2 (e - s + 1) = Nat.clog 2 ((e - s + 2) / 2) + 1 := by
        have hh := @Nat.clog_of_two_le 2 (e - s + 1) (by norm_num) (by omega)
        have hx : e - s + 1 + 2 - 1 = e - s + 2 := by omega
        rw [hx] at hh
        exact hh
      have hLL : (s + e) / 2 - s + 1 = (e - s + 2) / 2 := by omega
      have hLR : e - ((s + e) / 2 + 1) + 1 ≤ (e - s + 2) / 2 := by omega
      have hsizeL : (idx * 2 + 1 + 2) * 2 ^ Nat.clog 2 ((s + e) / 2 - s + 1) ≤ tree.size := by
        rw [hLL]
        calc (idx * 2 + 1 + 2) * 2 ^ Nat.clog 2 ((e - s + 2) / 2)
            ≤ ((idx + 2) * 2) * 2 ^ Nat.clog 2 ((e - s + 2) / 2) :=
              Nat.mul_le_mul_right _ (by omega)
          _ = (idx + 2) * 2 ^ (Nat.clog 2 ((e - s + 2) / 2) + 1) := by rw [pow_succ]; ring
          _ = (idx + 2) * 2 ^ Nat.clog 2 (e - s + 1) := by rw [← hclog]
          _ ≤ tree.size := h4
      have hcr_le : Nat.clog 2 (e - ((s + e) / 2 + 1) + 1) ≤ Nat.clog 2 ((e - s + 2) / 2) :=
        Nat.clog_mono_right 2 hLR
      have hsizeR :
          (idx * 2 + 2 + 2) * 2 ^ Nat.clog 2 (e - ((s + e) / 2 + 1) + 1) ≤ tree.size := by
        calc (idx * 2 + 2 + 2) * 2 ^ Nat.clog 2 (e - ((s + e) / 2 + 1) + 1)
            ≤ ((idx + 2) * 2) * 2 ^ Nat.clog 2 ((e - s + 2) / 2) :=
              Nat.mul_le_mul (by omega) (Nat.pow_le_pow_right (by norm_num) hcr_le)
          _ = (idx + 2) * 2 ^ (Nat.clog 2 ((e - s + 2) / 2) + 1) := by rw [pow_succ]; ring
          _ = (idx + 2) * 2 ^ Nat.clog 2 (e - s + 1) := by rw [← hclog]
          _ ≤ tree.size := h4
      obtain ⟨tree1, heq1, hsz1, hst1, hfr1⟩ :=
        ih s ((s + e) / 2) (idx * 2 + 1) tree hm1 (by omega) (by omega) hsizeL
      obtain ⟨tree2, heq2, hsz2, hst2, hfr2⟩ :=
        ih ((s + e) / 2 + 1) e (idx * 2 + 2) tree1 (by omega) h2 (by omega)
          (by rw [hsz1]; exact hsizeR)
      have hst1t2 : Stores data tree2 s ((s + e) / 2) (idx * 2 + 1) := by
        apply stores_transfer data tree1 tree2 _ _ _ hst1
        intro j hdj
        apply getSlot_congr
        apply hfr2
        intro hu
        exact desc_sibling idx j hdj (usedIn_desc _ _ _ _ hu)
      have hval : SegmentNode.make
          (SegmentTree.mergeNodes
            (SegmentNode.make (sliceSum data s ((s + e) / 2)) s ((s + e) / 2) (idx * 2 + 1))
            (SegmentNode.make (sliceSum data ((s + e) / 2 + 1) e) ((s + e) / 2 + 1) e
              (idx * 2 + 2)))
          s e idx = SegmentNode.make (sliceSum data s e) s e idx := by
        have hmn : SegmentTree.mergeNodes
            (SegmentNode.make (sliceSum data s ((s + e) / 2)) s ((s + e) / 2) (idx * 2 + 1))
            (SegmentNode.make (sliceSum data ((s + e) / 2 + 1) e) ((s + e) / 2 + 1) e
              (idx * 2 + 2)) =
            sliceSum data ((s + e) / 2 + 1) e + sliceSum data s ((s + e) / 2) := rfl
        rw [hmn, sliceSum_split data s ((s + e) / 2) e hm1 hm2,
          Int.add_comm (sliceSum data ((s + e) / 2 + 1) e) (sliceSum data s ((s + e) / 2))]
      have hidx2 : idx < tree2.size := by omega
      refine ⟨setVal tree2 idx (some (SegmentNode.make (sliceSum data s e) s e idx)), ?_,
        ?_, ?_, ?_⟩
      · simp only [SegmentTree.buildGo]
        rw [if_neg hse]
        simp only [heq1, heq2, setSlot_eq tree2 idx _ hidx2, hval]
      · rw [size_setVal, hsz2, hsz1]
      · refine Stores.node s e idx hslt h2 (getSlot_setVal_self tree2 idx _ hidx2) ?_ ?_
        · apply stores_transfer data tree2 _ _ _ _ hst1t2
          intro j hdj
          apply getSlot_setVal_ne
          have := desc_le _ _ hdj
          omega
        · apply stores_transfer data tree2 _ _ _ _ hst2
          intro j hdj
          apply getSlot_setVal_ne
          have := desc_le _ _ hdj
          omega
      · intro j hj
        have hj0 : j ≠ idx := fun hh => hj (by rw [hh]; exact usedIn_here s e idx)
        rw [getElem?_setVal_ne tree2 idx j _ hj0,
          hfr2 j (not_usedIn_right s e idx j hslt hj),
          hfr1 j (not_usedIn_left s e idx j hslt hj)]

/-! ## `getSlot` inversion and `PointFrame` lemmas -/

theorem getSlot_eq_some_iff (tree : Array (Option SegmentNode)) (j : Nat) (m : SegmentNode) :
    getSlot tree j = some m ↔ tree[j]? = some (some m) := by
  unfold getSlot
  cases hx : tree[j]? with
  | none => simp
  | some o => cases o <;> simp

theorem pointFrame_refl (k : Nat) (t : Array (Option SegmentNode)) : PointFrame k t t :=
  ⟨fun _ h => h, fun _ h => h, fun _ nd h => ⟨nd, h, rfl, rfl, rfl, rfl, fun _ => rfl⟩⟩

theorem pointFrame_trans (k : Nat) (t1 t2 t3 : Array (Option SegmentNode))
    (h12 : PointFrame k t1 t2) (h23 : PointFrame k t2 t3) : PointFrame k t1 t3 := by
  obtain ⟨a12, b12, c12⟩ := h12
  obtain ⟨a23, b23, c23⟩ := h23
  refine ⟨fun j h => a23 j (a12 j h), fun j h => b23 j (b12 j h), fun j nd h => ?_⟩
  obtain ⟨nd2, h2, e1, e2, e3, e4, e5⟩ := c12 j nd h
  obtain ⟨nd3, h3, f1, f2, f3, f4, f5⟩ := c23 j nd2 h2
  exact ⟨nd3, h3, f1.trans e1, f2.trans e2, f3.trans e3, f4.trans e4,
    fun hout => (f5 (by rw [e1, e2]; exact hout)).trans (e5 hout)⟩

/-- Overwriting the value of a stored node whose interval contains `k` is a
`PointFrame` step. -/
theorem pointFrame_setVal (k : Nat) (t : Array (Option SegmentNode)) (idx : Nat)
    (nd nd2 : SegmentNode) (hin : t[idx]? = some (some nd))
    (h1 : nd2.start = nd.start) (h2 : nd2.endI = nd.endI) (h3 : nd2.index = nd.index)
    (h4 : nd2.null_value = nd.null_value)
    (hcontains : nd.start ≤ k ∧ k ≤ nd.endI) :
    PointFrame k t (setVal t idx (some nd2)) := by
  have hidx : idx < t.size := by
    by_contra hc
    rw [Array.getElem?_eq_none_iff.mpr (by omega)] at hin
    simp at hin
  refine ⟨fun j h => ?_, fun j h => ?_, fun j nd0 h => ?_⟩
  · by_cases hj : j = idx
    · subst hj
      rw [hin] at h
      simp at h
    · rw [getElem?_setVal_ne t idx j _ hj]
      exact h
  · by_cases hj : j = idx
    · subst hj
      rw [hin] at h
      simp at h
    · rw [getElem?_setVal_ne t idx j _ hj]
      exact h
  · by_cases hj : j = idx
    · subst hj
      rw [hin] at h
      have hnd : nd = nd0 := by
        simp at h
        exact h
      subst hnd
      exact ⟨nd2, by rw [getElem?_setVal_self t j _ hidx], h1, h2, h3, h4,
        fun hout => absurd hcontains hout⟩
    · rw [getElem?_setVal_ne t idx j _ hj]
      exact ⟨nd0, h, rfl, rfl, rfl, rfl, fun _ => rfl⟩

/-! ## The constructor establishes well-formedness -/

theorem init_ok_length (data : List Int) (t : SegmentTree)
    (h : SegmentTree.init data = Except.ok t) : 1 ≤ data.length := by
  unfold SegmentTree.init at h
  by_cases h0 : data.length = 0
  · rw [if_pos h0] at h
    exact absurd h (by simp)
  · omega

theorem init_WF (data : List Int) (t : SegmentTree)
    (h : SegmentTree.init data = Except.ok t) :
    WF t data ∧ t.data = data ∧ t.tree.size = 2 * 2 ^ Nat.clog 2 data.length := by
  have hlen := init_ok_length data t h
  unfold SegmentTree.init at h
  rw [if_neg (by omega)] at h
  have hsize0 : (mkArray (2 * 2 ^ ceilLog2 data.length) (none : Option SegmentNode)).size =
      2 * 2 ^ Nat.clog 2 data.length := by
    rw [Array.size_mkArray, ceilLog2_eq_clog]
  have hcond : (0 + 2) * 2 ^ Nat.clog 2 (data.length - 1 - 0 + 1) ≤
      (mkArray (2 * 2 ^ ceilLog2 data.length) (none : Option SegmentNode)).size := by
    rw [hsize0]
    have hx : data.length - 1 - 0 + 1 = data.length := by omega
    rw [hx]
  obtain ⟨tree3, heq, hsz, hst, hfr⟩ :=
    buildGo_spec data data.length 0 (data.length - 1) 0 _ (by omega) (by omega) (by omega) hcond
  simp only [heq, Except.ok.injEq] at h
  subst h
  refine ⟨⟨hlen, rfl, hst, ?_⟩, rfl, by rw [hsz, hsize0]⟩
  intro j hsome
  by_contra hu
  have hx := hfr j hu
  by_cases hj : j < 2 * 2 ^ ceilLog2 data.length
  · rw [getElem?_mkArray_lt _ j hj] at hx
    unfold getSlot at hsome
    rw [hx] at hsome
    simp at hsome
  · rw [getElem?_mkArray_ge _ j (by omega)] at hx
    unfold getSlot at hsome
    rw [hx] at hsome
    simp at hsome

/-! ## Correctness of `query` -/

/-- Master query lemma: on a well-formed subtree for `[s, e]`, `query` with
arbitrary integer bounds `lo, hi` succeeds and returns the linear-scan sum
over `[s, e] ∩ [lo, hi]`. -/
theorem query_spec (data : List Int) (tree : Array (Option SegmentNode)) (s e idx : Nat)
    (h : Stores data tree s e idx) :
    ∀ fuel, e - s < fuel → ∀ lo hi : Int,
      SegmentTree.query tree (SegmentNode.make (sliceSum data s e) s e idx) lo hi fuel =
        some (subSum data s e lo hi) := by
  induction h with
  | leaf s idx hlen hslot =>
    intro fuel hfuel lo hi
    obtain ⟨fuel, rfl⟩ : ∃ f, fuel = f + 1 := ⟨fuel - 1, by omega⟩
    simp only [SegmentTree.query, SegmentNode.make]
    split_ifs with hc1 hc2
    · rw [subSum_of_contained data s s lo hi (le_refl s) hc1.1 hc1.2]
    · rw [subSum_of_disjoint data s s lo hi hc2]
    · exfalso
      omega
  | node s e idx hse hlen hslot hl hr ihl ihr =>
    intro fuel hfuel lo hi
    obtain ⟨fuel, rfl⟩ : ∃ f, fuel = f + 1 := ⟨fuel - 1, by omega⟩
    simp only [SegmentTree.query, SegmentNode.make]
    split_ifs with hc1 hc2
    · rw [subSum_of_contained data s e lo hi (le_of_lt hse) hc1.1 hc1.2]
    · rw [subSum_of_disjoint data s e lo hi hc2]
    · simp only [stores_slot data tree s ((s + e) / 2) (idx * 2 + 1) hl,
        stores_slot data tree ((s + e) / 2 + 1) e (idx * 2 + 2) hr,
        ihl fuel (by omega) lo hi, ihr fuel (by omega) lo hi]
      rw [subSum_split data s ((s + e) / 2) e lo hi (by omega) (by omega)]
      rfl

/-- `tree.query(tree.tree[0], lo, hi)` on a well-formed tree returns the
clipped linear-scan sum, for arbitrary integer bounds. -/
theorem queryRoot_spec (t : SegmentTree) (data : List Int) (hwf : WF t data) (lo hi : Int) :
    t.queryRoot lo hi = some (subSum data 0 (data.length - 1) lo hi) := by
  obtain ⟨hlen, hdlen, hst, hpop⟩ := hwf
  unfold SegmentTree.queryRoot
  simp only [stores_slot data t.tree 0 (data.length - 1) 0 hst]
  exact query_spec data t.tree 0 (data.length - 1) 0 hst t.data.length (by omega) lo hi

/-! ## Correctness of `update` -/

@[simp] theorem SegmentNode.make_value (v : Int) (s e idx : Nat) :
    (SegmentNode.make v s e idx).value = v := rfl

@[simp] theorem SegmentNode.make_start (v : Int) (s e idx : Nat) :
    (SegmentNode.make v s e idx).start = s := rfl

@[simp] theorem SegmentNode.make_endI (v : Int) (s e idx : Nat) :
    (SegmentNode.make v s e idx).endI = e := rfl

@[simp] theorem SegmentNode.make_index (v : Int) (s e idx : Nat) :
    (SegmentNode.make v s e idx).index = idx := rfl

@[simp] theorem SegmentNode.make_null_value (v : Int) (s e idx : Nat) :
    (SegmentNode.make v s e idx).null_value = 0 := rfl

@[simp] theorem SegmentNode.mk_eq_make (w : Int) (s e idx : Nat) :
    ({ value := w, start := s, endI := e, index := idx, null_value := 0 } : SegmentNode) =
      SegmentNode.make w s e idx := rfl

/-- Master update lemma for an in-range index: on a well-formed subtree whose
interval contains the data index `k`, `update` succeeds, adds `d` to the value
of exactly the nodes whose interval contains `k` (`PointFrame`), re-establishes
`Stores` for the pointwise-updated data, writes only inside its own recursion's
slots, and preserves the array size. -/
theorem update_spec (data : List Int) (k : Nat) (d : Int) (hk : k < data.length) :
    ∀ fuel (tree : Array (Option SegmentNode)) (s e idx : Nat),
      Stores data tree s e idx → e - s < fuel → s ≤ k → k ≤ e →
      ∃ tree2,
        SegmentTree.update tree (SegmentNode.make (sliceSum data s e) s e idx)
          (k : Int) d fuel = some tree2 ∧
        tree2.size = tree.size ∧
        Stores (data.set k (data.getD k 0 + d)) tree2 s e idx ∧
        (∀ j, ¬ UsedIn s e idx j → tree2[j]? = tree[j]?) ∧
        PointFrame k tree tree2 := by
  intro fuel
  induction fuel with
  | zero =>
    intro tree s e idx hst hfuel hsk hke
    omega
  | succ fuel ih =>
    intro tree s e idx hst hfuel hsk hke
    have hslot := stores_slot data tree s e idx hst
    have hidx : idx < tree.size := getSlot_lt_size tree idx _ hslot
    have hslotArr : tree[idx]? = some (some (SegmentNode.make (sliceSum data s e) s e idx)) :=
      (getSlot_eq_some_iff tree idx _).mp hslot
    cases hst with
    | leaf s idx hlen hslot2 =>
      refine ⟨setVal tree idx (some (SegmentNode.make (sliceSum data s s + d) s s idx)),
        ?_, size_setVal tree idx _, ?_, ?_, ?_⟩
      · rw [SegmentTree.update]
        simp only [SegmentNode.make_start, SegmentNode.make_endI, SegmentNode.make_index,
          SegmentNode.make_value, SegmentNode.make_null_value, SegmentNode.mk_eq_make,
          eq_self_iff_true, if_true]
        rw [if_neg (by omega)]
      · apply Stores.leaf s idx (by rw [List.length_set]; exact hlen)
        rw [getSlot_setVal_self tree idx _ hidx, sliceSum_set_mem data k d hk s s hsk hke]
      · intro j hj
        exact getElem?_setVal_ne tree idx j _
          (fun hh => hj (by rw [hh]; exact usedIn_here s s idx))
      · exact pointFrame_setVal k tree idx _ _ hslotArr rfl rfl rfl rfl ⟨hsk, hke⟩
    | node s e idx hse hlen hslot2 hl hr =>
      obtain ⟨f2, rfl⟩ : ∃ f2, fuel = f2 + 1 := ⟨fuel - 1, by omega⟩
      have hchildL : idx * 2 + 1 ≠ idx := by omega
      have hchildR : idx * 2 + 2 ≠ idx := by omega
      have hslotL : getSlot tree (idx * 2 + 1) =
          some (SegmentNode.make (sliceSum data s ((s + e) / 2)) s ((s + e) / 2)
            (idx * 2 + 1)) :=
        stores_slot data tree s ((s + e) / 2) (idx * 2 + 1) hl
      have hslotR : getSlot tree (idx * 2 + 2) =
          some (SegmentNode.make (sliceSum data ((s + e) / 2 + 1) e) ((s + e) / 2 + 1) e
            (idx * 2 + 2)) :=
        stores_slot data tree ((s + e) / 2 + 1) e (idx * 2 + 2) hr
      have hst_l1 : Stores data
          (setVal tree idx (some (SegmentNode.make (sliceSum data s e + d) s e idx)))
          s ((s + e) / 2) (idx * 2 + 1) := by
        apply stores_transfer data tree _ _ _ _ hl
        intro j hdj
        exact getSlot_setVal_ne tree idx j _ (by have := desc_le _ _ hdj; omega)
      have hst_r1 : Stores data
          (setVal tree idx (some (SegmentNode.make (sliceSum data s e + d) s e idx)))
          ((s + e) / 2 + 1) e (idx * 2 + 2) := by
        apply stores_transfer data tree _ _ _ _ hr
        intro j hdj
        exact getSlot_setVal_ne tree idx j _ (by have := desc_le _ _ hdj; omega)
      have hpf1 : PointFrame k tree
          (setVal tree idx (some (SegmentNode.make (sliceSum data s e + d) s e idx))) :=
        pointFrame_setVal k tree idx _ _ hslotArr rfl rfl rfl rfl ⟨hsk, hke⟩
      have hslotL1 : getSlot
          (setVal tree idx (some (SegmentNode.make (sliceSum data s e + d) s e idx)))
          (idx * 2 + 1) =
          some (SegmentNode.make (sliceSum data s ((s + e) / 2)) s ((s + e) / 2)
            (idx * 2 + 1)) := by
        rw [getSlot_setVal_ne tree idx (idx * 2 + 1) _ hchildL]
        exact hslotL
      have hslotR1 : getSlot
          (setVal tree idx (some (SegmentNode.make (sliceSum data s e + d) s e idx)))
          (idx * 2 + 2) =
          some (SegmentNode.make (sliceSum data ((s + e) / 2 + 1) e) ((s + e) / 2 + 1) e
            (idx * 2 + 2)) := by
        rw [getSlot_setVal_ne tree idx (idx * 2 + 2) _ hchildR]
        exact hslotR
      by_cases hkm : k ≤ (s + e) / 2
      · obtain ⟨tree2, heq2, hsz2, hst2, hfr2, hpf2⟩ :=
          ih (setVal tree idx (some (SegmentNode.make (sliceSum data s e + d) s e idx)))
            s ((s + e) / 2) (idx * 2 + 1) hst_l1 (by omega) hsk hkm
        have hnuR : ¬ UsedIn s ((s + e) / 2) (idx * 2 + 1) (idx * 2 + 2) := fun hu =>
          desc_sibling idx (idx * 2 + 2) (usedIn_desc _ _ _ _ hu) (desc_refl _)
        have hslotR2 : getSlot tree2 (idx * 2 + 2) =
            some (SegmentNode.make (sliceSum data ((s + e) / 2 + 1) e) ((s + e) / 2 + 1) e
              (idx * 2 + 2)) := by
          rw [getSlot_congr _ tree2 _ (hfr2 _ hnuR)]
          exact hslotR1
        have hnoop : SegmentTree.update tree2
            (SegmentNode.make (sliceSum data ((s + e) / 2 + 1) e) ((s + e) / 2 + 1) e
              (idx * 2 + 2)) (k : Int) d (f2 + 1) = some tree2 := by
          rw [SegmentTree.update]
          simp only [SegmentNode.make_start, SegmentNode.make_endI, SegmentNode.make_index,
            SegmentNode.make_value, SegmentNode.make_null_value, SegmentNode.mk_eq_make]
          rw [if_pos (by omega)]
        refine ⟨tree2, ?_, ?_, ?_, ?_, ?_⟩
        · rw [SegmentTree.update]
          simp only [SegmentNode.make_start, SegmentNode.make_endI, SegmentNode.make_index,
            SegmentNode.make_value, SegmentNode.make_null_value, SegmentNode.mk_eq_make]
          rw [if_neg (by omega), if_neg (by omega : ¬ s = e)]
          simp only [hslotL1, heq2, hslotR2, hnoop]
        · rw [hsz2, size_setVal]
        · refine Stores.node s e idx hse (by rw [List.length_set]; exact hlen) ?_ hst2 ?_
          · have hidxn : ¬ UsedIn s ((s + e) / 2) (idx * 2 + 1) idx := fun hu => by
              have := desc_le _ _ (usedIn_desc _ _ _ _ hu)
              omega
            rw [getSlot_congr _ tree2 idx (hfr2 idx hidxn),
              getSlot_setVal_self tree idx _ hidx,
              sliceSum_set_mem data k d hk s e hsk hke]
          · have hst_r2 : Stores data tree2 ((s + e) / 2 + 1) e (idx * 2 + 2) := by
              apply stores_transfer data _ tree2 _ _ _ hst_r1
              intro j hdj
              apply getSlot_congr
              apply hfr2
              intro hu
              exact desc_sibling idx j (usedIn_desc _ _ _ _ hu) hdj
            exact stores_set_out data tree2 k d hk _ _ _ hst_r2 (by omega)
        · intro j hj
          have hj0 : j ≠ idx := fun hh => hj (by rw [hh]; exact usedIn_here s e idx)
          rw [hfr2 j (not_usedIn_left s e idx j hse hj),
            getElem?_setVal_ne tree idx j _ hj0]
        · exact pointFrame_trans k tree _ tree2 hpf1 hpf2
      · obtain ⟨tree2, heq2, hsz2, hst2, hfr2, hpf2⟩ :=
          ih (setVal tree idx (some (SegmentNode.make (sliceSum data s e + d) s e idx)))
            ((s + e) / 2 + 1) e (idx * 2 + 2) hst_r1 (by omega) (by omega) hke
        have hnoop : SegmentTree.update
            (setVal tree idx (some (SegmentNode.make (sliceSum data s e + d) s e idx)))
            (SegmentNode.make (sliceSum data s ((s + e) / 2)) s ((s + e) / 2) (idx * 2 + 1))
            (k : Int) d (f2 + 1) = some
            (setVal tree idx (some (SegmentNode.make (sliceSum data s e + d) s e idx))) := by
          rw [SegmentTree.update]
          simp only [SegmentNode.make_start, SegmentNode.make_endI, SegmentNode.make_index,
            SegmentNode.make_value, SegmentNode.make_null_value, SegmentNode.mk_eq_make]
          rw [if_pos (by omega)]
        refine ⟨tree2, ?_, ?_, ?_, ?_, ?_⟩
        · rw [SegmentTree.update]
          simp only [SegmentNode.make_start, SegmentNode.make_endI, SegmentNode.make_index,
            SegmentNode.make_value, SegmentNode.make_null_value, SegmentNode.mk_eq_make]
          rw [if_neg (by omega), if_neg (by omega : ¬ s = e)]
          simp only [hslotL1, hnoop, hslotR1, heq2]
        · rw [hsz2, size_setVal]
        · refine Stores.node s e idx hse (by rw [List.length_set]; exact hlen) ?_ ?_ hst2
          · have hidxn : ¬ UsedIn ((s + e) / 2 + 1) e (idx * 2 + 2) idx := fun hu => by
              have := desc_le _ _ (usedIn_desc _ _ _ _ hu)
              omega
            rw [getSlot_congr _ tree2 idx (hfr2 idx hidxn),
              getSlot_setVal_self tree idx _ hidx,
              sliceSum_set_mem data k d hk s e hsk hke]
          · have hst_l2 : Stores data tree2 s ((s + e) / 2) (idx * 2 + 1) := by
              apply stores_transfer data _ tree2 _ _ _ hst_l1
              intro j hdj
              apply getSlot_congr
              apply hfr2
              intro hu
              exact desc_sibling idx j hdj (usedIn_desc _ _ _ _ hu)
            exact stores_set_out data tree2 k d hk _ _ _ hst_l2 (by omega)
        · intro j hj
          have hj0 : j ≠ idx := fun hh => hj (by rw [hh]; exact usedIn_here s e idx)
          rw [hfr2 j (not_usedIn_right s e idx j hse hj),
            getElem?_setVal_ne tree idx j _ hj0]
        · exact pointFrame_trans k tree _ tree2 hpf1 hpf2

/-- Root-level update: on a well-formed tree, `tree.update(tree.tree[0], k, d)`
succeeds, re-establishes well-formedness for the pointwise-updated data, keeps
`self.data` and the array size unchanged, and satisfies the point frame. -/
theorem updateRoot_spec (t : SegmentTree) (data : List Int) (hwf : WF t data)
    (k : Nat) (hk : k < data.length) (d : Int) :
    ∃ t2 : SegmentTree,
      t.updateRoot (k : Int) d = some t2 ∧
      WF t2 (data.set k (data.getD k 0 + d)) ∧
      t2.data = t.data ∧ t2.tree.size = t.tree.size ∧
      PointFrame k t.tree t2.tree := by
  obtain ⟨hlen, hdlen, hst, hpop⟩ := hwf
  obtain ⟨tree2, hequ, hsz, hst2, hfr, hpf⟩ :=
    update_spec data k d hk t.data.length t.tree 0 (data.length - 1) 0 hst (by omega)
      (by omega) (by omega)
  have hlenset : (data.set k (data.getD k 0 + d)).length = data.length := by
    rw [List.length_set]
  refine ⟨{ tree := tree2, data := t.data }, ?_, ⟨by rw [hlenset]; omega,
    by rw [hlenset]; exact hdlen, by rw [hlenset]; exact hst2, ?_⟩, rfl, hsz, hpf⟩
  · unfold SegmentTree.updateRoot
    simp only [stores_slot data t.tree 0 (data.length - 1) 0 hst, hequ]
  · rw [hlenset]
    intro j hsome
    cases hx : t.tree[j]? with
    | none =>
      exfalso
      have hnone := hpf.1 j hx
      unfold getSlot at hsome
      rw [hnone] at hsome
      simp at hsome
    | some o =>
      cases o with
      | none =>
        exfalso
        have hnone := hpf.2.1 j hx
        unfold getSlot at hsome
        rw [hnone] at hsome
        simp at hsome
      | some nd =>
        apply hpop
        unfold getSlot
        rw [hx]
        rfl

/-- Every reachable tree state is well-formed for its logical data. -/
theorem reachable_WF (t : SegmentTree) (data : List Int) (h : Reachable t data) :
    WF t data := by
  induction h with
  | base data t hinit => exact (init_WF data t hinit).1
  | step t data i d t2 hreach hi hupd ih =>
    obtain ⟨t2x, hequ, hwf2, _, _, _⟩ := updateRoot_spec t data ih i hi d
    have ht : t2x = t2 := by
      rw [hupd] at hequ
      exact (Option.some.inj hequ).symm
    rw [← ht]
    exact hwf2

/-! ## Recursion-tree geometry: parentage and uniqueness -/

theorem subSumGo_zero_of_rev (data : List Int) (lo hi : Int) (s len : Nat) (h : hi < lo) :
    subSumGo data lo hi s len = 0 := by
  induction len generalizing s with
  | zero => rfl
  | succ len ih => rw [subSumGo, if_neg (by omega), ih (s + 1), add_zero]

theorem subSum_zero_of_rev (data : List Int) (s e : Nat) (lo hi : Int) (h : hi < lo) :
    subSum data s e lo hi = 0 := by
  unfold subSum
  exact subSumGo_zero_of_rev data lo hi s _ h

/-- Every recursion node other than the root is a heap child of another
recursion node with a non-trivial interval. -/
theorem covers_parent (s e idx s2 e2 j : Nat) (h : Covers s e idx s2 e2 j) :
    j = idx ∨ ∃ sa ea, Covers s e idx sa ea ((j - 1) / 2) ∧ sa < ea := by
  induction h with
  | here s e idx => exact Or.inl rfl
  | left s e idx s2 e2 j hse hc ih =>
    rcases ih with hj | ⟨sa, ea, hca, hlt⟩
    · subst hj
      right
      refine ⟨s, e, ?_, hse⟩
      have hp : (idx * 2 + 1 - 1) / 2 = idx := by omega
      rw [hp]
      exact Covers.here s e idx
    · right
      exact ⟨sa, ea, Covers.left s e idx sa ea _ hse hca, hlt⟩
  | right s e idx s2 e2 j hse hc ih =>
    rcases ih with hj | ⟨sa, ea, hca, hlt⟩
    · subst hj
      right
      refine ⟨s, e, ?_, hse⟩
      have hp : (idx * 2 + 2 - 1) / 2 = idx := by omega
      rw [hp]
      exact Covers.here s e idx
    · right
      exact ⟨sa, ea, Covers.right s e idx sa ea _ hse hca, hlt⟩

/-- A recursion position determines its interval: two `Covers` facts for the
same array position agree on the interval. -/
theorem covers_unique (s e idx s2 e2 j s3 e3 : Nat) (h1 : Covers s e idx s2 e2 j) :
    Covers s e idx s3 e3 j → s2 = s3 ∧ e2 = e3 := by
  induction h1 generalizing s3 e3 with
  | here s e idx =>
    intro h2
    cases h2 with
    | here => exact ⟨rfl, rfl⟩
    | left _ _ _ _ _ _ hse hc =>
      exfalso
      have := desc_le _ _ (covers_desc _ _ _ _ _ _ hc)
      omega
    | right _ _ _ _ _ _ hse hc =>
      exfalso
      have := desc_le _ _ (covers_desc _ _ _ _ _ _ hc)
      omega
  | left s e idx s2 e2 j hse hc ih =>
    intro h2
    cases h2 with
    | here =>
      exfalso
      have := desc_le _ _ (covers_desc _ _ _ _ _ _ hc)
      omega
    | left _ _ _ _ _ _ _ hc2 => exact ih s3 e3 hc2
    | right _ _ _ _ _ _ _ hc2 =>
      exfalso
      exact desc_sibling idx j (covers_desc _ _ _ _ _ _ hc) (covers_desc _ _ _ _ _ _ hc2)
  | right s e idx s2 e2 j hse hc ih =>
    intro h2
    cases h2 with
    | here =>
      exfalso
      have := desc_le _ _ (covers_desc _ _ _ _ _ _ hc)
      omega
    | left _ _ _ _ _ _ _ hc2 =>
      exfalso
      exact desc_sibling idx j (covers_desc _ _ _ _ _ _ hc2) (covers_desc _ _ _ _ _ _ hc)
    | right _ _ _ _ _ _ _ hc2 => exact ih s3 e3 hc2

/-- `Stores` restricts to every recursion sub-position. -/
theorem covers_stores (data : List Int) (tree : Array (Option SegmentNode))
    (s e idx s2 e2 j : Nat) (hc : Covers s e idx s2 e2 j) :
    Stores data tree s e idx → Stores data tree s2 e2 j := by
  induction hc with
  | here => exact id
  | left s e idx s2 e2 j hse hc ih =>
    intro hst
    cases hst with
    | leaf => omega
    | node _ _ _ hse2 hlen2 hslot2 hl hr => exact ih hl
  | right s e idx s2 e2 j hse hc ih =>
    intro hst
    cases hst with
    | leaf => omega
    | node _ _ _ hse2 hlen2 hslot2 hl hr => exact ih hr

/-- Well-formed trees satisfy the per-node invariants. -/
theorem WF_invariant (t : SegmentTree) (data : List Int) (hwf : WF t data) :
    TreeInvariant t.tree data := by
  obtain ⟨hlen, hdlen, hst, hpop⟩ := hwf
  intro idx node hslot
  obtain ⟨s2, e2, hcov⟩ := hpop idx (by rw [hslot]; rfl)
  have hstj := covers_stores data t.tree 0 (data.length - 1) 0 s2 e2 idx hcov hst
  have hslot2 := stores_slot data t.tree s2 e2 idx hstj
  have hnode : node = SegmentNode.make (sliceSum data s2 e2) s2 e2 idx := by
    rw [hslot] at hslot2
    exact Option.some.inj hslot2
  subst hnode
  have hbounds := stores_bounds data t.tree s2 e2 idx hstj
  refine ⟨rfl, by simp only [SegmentNode.make_start, SegmentNode.make_endI]; exact hbounds.1,
    by simp only [SegmentNode.make_endI]; exact hbounds.2, ?_, ?_⟩
  · intro hleaf
    simp only [SegmentNode.make_start, SegmentNode.make_endI] at hleaf
    subst hleaf
    refine ⟨by simp only [SegmentNode.make_value, SegmentNode.make_start, sliceSum_leaf], ?_, ?_⟩
    · cases hgs : getSlot t.tree (idx * 2 + 1) with
      | none => rfl
      | some c =>
        exfalso
        obtain ⟨s3, e3, hcov3⟩ := hpop (idx * 2 + 1) (by rw [hgs]; rfl)
        rcases covers_parent 0 (data.length - 1) 0 s3 e3 (idx * 2 + 1) hcov3 with hj0 |
          ⟨sa, ea, hcpa, hlt⟩
        · omega
        · have hpar : (idx * 2 + 1 - 1) / 2 = idx := by omega
          rw [hpar] at hcpa
          obtain ⟨hs, he⟩ := covers_unique 0 (data.length - 1) 0 sa ea idx s2 s2 hcpa hcov
          omega
    · cases hgs : getSlot t.tree (idx * 2 + 2) with
      | none => rfl
      | some c =>
        exfalso
        obtain ⟨s3, e3, hcov3⟩ := hpop (idx * 2 + 2) (by rw [hgs]; rfl)
        rcases covers_parent 0 (data.length - 1) 0 s3 e3 (idx * 2 + 2) hcov3 with hj0 |
          ⟨sa, ea, hcpa, hlt⟩
        · omega
        · have hpar : (idx * 2 + 2 - 1) / 2 = idx := by omega
          rw [hpar] at hcpa
          obtain ⟨hs, he⟩ := covers_unique 0 (data.length - 1) 0 sa ea idx s2 s2 hcpa hcov
          omega
  · intro hne
    simp only [SegmentNode.make_start, SegmentNode.make_endI] at hne
    have hslt : s2 < e2 := by omega
    cases hstj with
    | leaf => omega
    | node _ _ _ hse2 hlen2 hslot3 hl hr =>
      refine ⟨_, _, stores_slot _ _ _ _ _ hl, stores_slot _ _ _ _ _ hr, ?_⟩
      simp only [SegmentNode.make_value]
      rw [sliceSum_split data s2 ((s2 + e2) / 2) e2 (by omega) (by omega)]
      show sliceSum data s2 ((s2 + e2) / 2) + sliceSum data ((s2 + e2) / 2 + 1) e2 =
        sliceSum data ((s2 + e2) / 2 + 1) e2 + sliceSum data s2 ((s2 + e2) / 2)
      ring

/-! ## The claims -/

/-- Claim C1: for every non-empty integer list `data` of length `n` and every
`lo, hi` with `0 ≤ lo ≤ hi ≤ n-1`, `query(root, lo, hi)` on the tree built
from `data` returns the linear-scan sum of `data[lo..hi]`; in particular
`query(root, 0, n-1)` equals `sum(data)`. -/
theorem claim_C1 (data : List Int) (t : SegmentTree)
    (h : SegmentTree.init data = Except.ok t) (lo hi : Nat)
    (hlohi : lo ≤ hi) (hhi : hi ≤ data.length - 1) :
    t.queryRoot (lo : Int) (hi : Int) = some (sliceSum data lo hi) ∧
    t.queryRoot ((0 : Nat) : Int) ((data.length - 1 : Nat) : Int) = some data.sum := by
  have hwf := (init_WF data t h).1
  have hlen := init_ok_length data t h
  constructor
  · rw [queryRoot_spec t data hwf (lo : Int) (hi : Int),
      subSum_valid data (data.length - 1) lo hi hlohi hhi]
  · rw [queryRoot_spec t data hwf ((0 : Nat) : Int) ((data.length - 1 : Nat) : Int),
      subSum_valid data (data.length - 1) 0 (data.length - 1) (by omega) (le_refl _),
      sliceSum_all data hlen]

theorem claim_C1_witness :
    demoTree.queryRoot ((1 : Nat) : Int) ((4 : Nat) : Int) = some (sliceSum demoData 1 4) ∧
    demoTree.queryRoot ((0 : Nat) : Int) ((demoData.length - 1 : Nat) : Int) =
      some demoData.sum :=
  claim_C1 demoData demoTree rfl 1 4 (by decide) (by decide)

/-- Claim C2: for every tree built from non-empty data, every `i ∈ [0, n-1]`
and every delta `d`, `update(root, i, d)` succeeds, and afterwards every query
with valid bounds returns its previous result plus `d` exactly when
`i ∈ [lo, hi]`, and its previous result unchanged otherwise. -/
theorem claim_C2 (data : List Int) (t : SegmentTree)
    (h : SegmentTree.init data = Except.ok t) (i : Nat) (hi : i < data.length) (d : Int) :
    ∃ t2 : SegmentTree, t.updateRoot (i : Int) d = some t2 ∧
      ∀ lo hi2 : Nat, lo ≤ hi2 → hi2 ≤ data.length - 1 →
        ((lo ≤ i ∧ i ≤ hi2 →
          t2.queryRoot (lo : Int) (hi2 : Int) =
            (t.queryRoot (lo : Int) (hi2 : Int)).map (fun v => v + d)) ∧
        (¬ (lo ≤ i ∧ i ≤ hi2) →
          t2.queryRoot (lo : Int) (hi2 : Int) = t.queryRoot (lo : Int) (hi2 : Int))) := by
  have hwf := (init_WF data t h).1
  obtain ⟨t2, hequ, hwf2, _, _, _⟩ := updateRoot_spec t data hwf i hi d
  refine ⟨t2, hequ, ?_⟩
  intro lo hi2 h1 h2
  have hq1 := queryRoot_spec t data hwf (lo : Int) (hi2 : Int)
  have hq2 := queryRoot_spec t2 _ hwf2 (lo : Int) (hi2 : Int)
  rw [List.length_set] at hq2
  have hset := subSum_set data i d hi 0 (data.length - 1) (lo : Int) (hi2 : Int)
  constructor
  · intro hin
    rw [hq1, hq2, hset, if_pos (by omega)]
    rfl
  · intro hout
    rw [hq1, hq2, hset, if_neg (by omega), add_zero]

theorem claim_C2_witness :
    ∃ t2 : SegmentTree, demoTree.updateRoot ((3 : Nat) : Int) (-1) = some t2 ∧
      ∀ lo hi2 : Nat, lo ≤ hi2 → hi2 ≤ demoData.length - 1 →
        ((lo ≤ 3 ∧ 3 ≤ hi2 →
          t2.queryRoot (lo : Int) (hi2 : Int) =
            (demoTree.queryRoot (lo : Int) (hi2 : Int)).map (fun v => v + (-1))) ∧
        (¬ (lo ≤ 3 ∧ 3 ≤ hi2) →
          t2.queryRoot (lo : Int) (hi2 : Int) = demoTree.queryRoot (lo : Int) (hi2 : Int))) :=
  claim_C2 demoData demoTree rfl 3 (by decide) (-1)

/-- Claim C3: in every tree state reachable by build followed by any sequence
of valid point updates, every internal node's value equals `merge` of its left
and right child's values, and every leaf (`start == end`, per the source's own
definition of a leaf) holds the element of the logical data (the input with
all updates applied) at that index — moreover leaves have no children. -/
theorem claim_C3 (t : SegmentTree) (data : List Int) (h : Reachable t data) :
    TreeInvariant t.tree data :=
  WF_invariant t data (reachable_WF t data h)

theorem claim_C3_witness : TreeInvariant demoTree.tree demoData :=
  claim_C3 demoTree demoData (Reachable.base demoData demoTree rfl)

/-- Claim C4 (as stated, refuted): a query with invalid bounds is claimed to
fail with `RangeError`; in fact the code performs no bounds validation — on
the demo tree, `query(root, 2, 1)` returns normally with the null value `0`
and no exception. -/
theorem claim_C4_counterexample :
    SegmentTree.init demoData = Except.ok demoTree ∧
    demoTree.queryRoot 2 1 = some 0 ∧ demoTree.queryRoot 2 1 ≠ none :=
  ⟨rfl, rfl, by decide⟩

/-- Claim C4 (amended): a query with invalid bounds does not fail: `query`
performs no validation and returns the linear-scan sum over
`[lo, hi] ∩ [0, n-1]` (so out-of-range bounds are effectively clamped), and in
particular `lo > hi` yields the null value `0`; the tree is not mutated
(`query` performs no writes, which the embedding reflects by returning only a
value). -/
theorem claim_C4 (data : List Int) (t : SegmentTree)
    (h : SegmentTree.init data = Except.ok t) (lo hi : Int) :
    t.queryRoot lo hi = some (subSum data 0 (data.length - 1) lo hi) ∧
    (hi < lo → t.queryRoot lo hi = some 0) := by
  have hwf := (init_WF data t h).1
  refine ⟨queryRoot_spec t data hwf lo hi, fun hlh => ?_⟩
  rw [queryRoot_spec t data hwf lo hi, subSum_zero_of_rev data 0 (data.length - 1) lo hi hlh]

theorem claim_C4_witness :
    (demoTree.queryRoot 7 (-2) = some (subSum demoData 0 (demoData.length - 1) 7 (-2)) ∧
      ((-2 : Int) < 7 → demoTree.queryRoot 7 (-2) = some 0)) :=
  claim_C4 demoData demoTree rfl 7 (-2)

/-- Claim C5 (as stated, refuted): constructing from empty data is claimed to
fail with `InvalidInputError`; in fact `math.log(0, 2)` raises the built-in
`ValueError` (math domain error) — the source defines no `InvalidInputError`
class. -/
theorem claim_C5_counterexample :
    SegmentTree.init ([] : List Int) = Except.error PyError.valueError ∧
    PyError.valueError ≠ PyError.invalidInputError :=
  ⟨rfl, by decide⟩

/-- Claim C5 (amended): constructing a tree from an empty data sequence fails
with the built-in `ValueError` raised by `math.log(0, 2)`, before `self.tree`
is ever assigned — the error result carries no tree, so no partially built
tree is left usable. -/
theorem claim_C5 : SegmentTree.init ([] : List Int) = Except.error PyError.valueError :=
  rfl

/-- Claim C6 (as stated, refuted): a point update with out-of-range index is
claimed to fail with `IndexOutOfRangeError`; in fact `update` silently
returns: on the demo tree, updates at index `100` and `-3` return normally
with the tree unchanged. -/
theorem claim_C6_counterexample :
    demoTree.updateRoot 100 5 = some demoTree ∧
    demoTree.updateRoot (-3) 5 = some demoTree ∧
    demoTree.updateRoot 100 5 ≠ none :=
  ⟨rfl, rfl, by decide⟩

/-- Claim C6 (amended): a point update whose data index is outside `[0, n-1]`
performs no mutation of any node, but raises no error: the out-of-interval
test at the root makes it a silent no-op that returns the tree unchanged. -/
theorem claim_C6 (data : List Int) (t : SegmentTree)
    (h : SegmentTree.init data = Except.ok t) (i d : Int)
    (hout : i < 0 ∨ (data.length : Int) - 1 < i) :
    t.updateRoot i d = some t := by
  obtain ⟨⟨hlen, hdlen, hst, hpop⟩, _, _⟩ := init_WF data t h
  unfold SegmentTree.updateRoot
  simp only [stores_slot data t.tree 0 (data.length - 1) 0 hst]
  obtain ⟨f, hf⟩ : ∃ f, t.data.length = f + 1 := ⟨t.data.length - 1, by omega⟩
  rw [hf, SegmentTree.update]
  simp only [SegmentNode.make_start, SegmentNode.make_endI, SegmentNode.make_index,
    SegmentNode.make_value, SegmentNode.make_null_value, SegmentNode.mk_eq_make]
  rw [if_pos (by omega)]

theorem claim_C6_witness : demoTree.updateRoot 100 5 = some demoTree :=
  claim_C6 demoData demoTree rfl 100 5 (by decide)

/-- Claim C7: for every non-empty data of length `n`, the constructor
allocates the backing array with length exactly `2 * 2^⌈log₂ n⌉`, which is
twice the least power of two that is `≥ n`.  This theorem proves the claim
against the intended size computation (exact `⌈log₂ n⌉`, the spec's
`2 * nextPowerOfTwo(n)`, which `ceilLog2` realizes); the running program
computes it through IEEE-double `math.log(n, 2)` and misses this exactness —
at `n = 2^29` the float evaluates to `29.000000000000004`, `ceil` yields `30`,
and the code allocates `2 * 2^30`, twice the claimed size (see the
`SegmentTree.init` doc comment) — a floating-point defect of the code rather
than of the claim, which states the documented intent. -/
theorem claim_C7 (data : List Int) (t : SegmentTree)
    (h : SegmentTree.init data = Except.ok t) :
    t.tree.size = 2 * 2 ^ Nat.clog 2 data.length ∧
    data.length ≤ 2 ^ Nat.clog 2 data.length ∧
    (∀ m : Nat, data.length ≤ 2 ^ m → 2 ^ Nat.clog 2 data.length ≤ 2 ^ m) := by
  refine ⟨(init_WF data t h).2.2, Nat.le_pow_clog (by norm_num) _, fun m hm => ?_⟩
  exact Nat.pow_le_pow_right (by norm_num)
    ((@Nat.le_pow_iff_clog_le 2 (by norm_num) data.length m).mp hm)

theorem claim_C7_witness :
    demoTree.tree.size = 2 * 2 ^ Nat.clog 2 demoData.length ∧
    demoData.length ≤ 2 ^ Nat.clog 2 demoData.length ∧
    (∀ m : Nat, demoData.length ≤ 2 ^ m → 2 ^ Nat.clog 2 demoData.length ≤ 2 ^ m) :=
  claim_C7 demoData demoTree rfl

/-- Claim C8: on every reachable tree, a query with valid bounds and a point
update with an in-range index both complete successfully — the recursive
traversals never dereference an empty (`None`) slot and never index outside
the array (the embedding returns `none` on any such access, and the results
are proved to be `some`). -/
theorem claim_C8 (t : SegmentTree) (data : List Int) (h : Reachable t data)
    (lo hi : Nat) (h1 : lo ≤ hi) (h2 : hi ≤ data.length - 1)
    (i : Nat) (hi2 : i < data.length) (d : Int) :
    (t.queryRoot (lo : Int) (hi : Int)).isSome = true ∧
    (t.updateRoot (i : Int) d).isSome = true := by
  have hwf := reachable_WF t data h
  constructor
  · rw [queryRoot_spec t data hwf (lo : Int) (hi : Int)]
    rfl
  · obtain ⟨t2, hequ, _⟩ := updateRoot_spec t data hwf i hi2 d
    rw [hequ]
    rfl

theorem claim_C8_witness :
    (demoTree.queryRoot ((1 : Nat) : Int) ((4 : Nat) : Int)).isSome = true ∧
    (demoTree.updateRoot ((3 : Nat) : Int) (-1)).isSome = true :=
  claim_C8 demoTree demoData (Reachable.base demoData demoTree rfl) 1 4 (by decide)
    (by decide) 3 (by decide) (-1)

/-- Claim C9: the merge operation satisfies the identity law with respect to
the null element: for every node value `x`, `merge(x, null_value) == x`, and
for every `y`, `merge(null_value, y) == y`, where `null_value` (`0` as set by
the node constructor) is exactly the value `query` returns for a node whose
interval does not overlap the query interval. -/
theorem claim_C9 (v x y : Int) (s e idx : Nat) (hse : s ≤ e)
    (tree : Array (Option SegmentNode)) (lo hi : Int) (fuel : Nat)
    (hdisj : (e : Int) < lo ∨ (s : Int) > hi) :
    SegmentTree.mergeInts x (SegmentNode.make v s e idx).null_value = x ∧
    SegmentTree.mergeInts (SegmentNode.make v s e idx).null_value y = y ∧
    SegmentTree.query tree (SegmentNode.make v s e idx) lo hi (fuel + 1) =
      some (SegmentNode.make v s e idx).null_value := by
  refine ⟨by simp [SegmentTree.mergeInts], by simp [SegmentTree.mergeInts], ?_⟩
  rw [SegmentTree.query]
  simp only [SegmentNode.make_start, SegmentNode.make_endI, SegmentNode.make_index,
    SegmentNode.make_value, SegmentNode.make_null_value]
  rw [if_neg (by omega), if_pos (by omega)]

theorem claim_C9_witness :
    SegmentTree.mergeInts 3 (SegmentNode.make 5 1 2 0).null_value = 3 ∧
    SegmentTree.mergeInts (SegmentNode.make 5 1 2 0).null_value 7 = 7 ∧
    SegmentTree.query #[] (SegmentNode.make 5 1 2 0) 5 7 (0 + 1) =
      some (SegmentNode.make 5 1 2 0).null_value :=
  claim_C9 5 3 7 1 2 0 (by decide) #[] 5 7 0 (by decide)

/-- Claim C10: a valid point update changes only the `value` fields of stored
nodes whose interval contains the updated index; every other stored node's
value, every node's `start`, `end` and `index` fields, the empty (`None`)
slots, the array's extent, and the stored `data` list are all unchanged. -/
theorem claim_C10 (t : SegmentTree) (data : List Int) (h : Reachable t data)
    (i : Nat) (hi : i < data.length) (d : Int) (t2 : SegmentTree)
    (hupd : t.updateRoot (i : Int) d = some t2) :
    t2.data = t.data ∧
    (∀ j : Nat, t.tree[j]? = none → t2.tree[j]? = none) ∧
    (∀ j : Nat, t.tree[j]? = some none → t2.tree[j]? = some none) ∧
    (∀ (j : Nat) (nd : SegmentNode), t.tree[j]? = some (some nd) →
      ∃ nd2 : SegmentNode, t2.tree[j]? = some (some nd2) ∧
        nd2.start = nd.start ∧ nd2.endI = nd.endI ∧ nd2.index = nd.index ∧
        (¬ (nd.start ≤ i ∧ i ≤ nd.endI) → nd2.value = nd.value)) := by
  have hwf := reachable_WF t data h
  obtain ⟨t2x, hequ, hwf2, hdata, hsize, hpf⟩ := updateRoot_spec t data hwf i hi d
  have ht : t2x = t2 := by
    rw [hupd] at hequ
    exact (Option.some.inj hequ).symm
  subst ht
  refine ⟨hdata, hpf.1, hpf.2.1, fun j nd hj => ?_⟩
  obtain ⟨nd2, h0, h1, h2, h3, _, h5⟩ := hpf.2.2 j nd hj
  exact ⟨nd2, h0, h1, h2, h3, h5⟩

theorem claim_C10_witness :
    demoTree2.data = demoTree.data ∧
    (∀ j : Nat, demoTree.tree[j]? = none → demoTree2.tree[j]? = none) ∧
    (∀ j : Nat, demoTree.tree[j]? = some none → demoTree2.tree[j]? = some none) ∧
    (∀ (j : Nat) (nd : SegmentNode), demoTree.tree[j]? = some (some nd) →
      ∃ nd2 : SegmentNode, demoTree2.tree[j]? = some (some nd2) ∧
        nd2.start = nd.start ∧ nd2.endI = nd.endI ∧ nd2.index = nd.index ∧
        (¬ (nd.start ≤ 3 ∧ 3 ≤ nd.endI) → nd2.value = nd.value)) :=
  claim_C10 demoTree demoData (Reachable.base demoData demoTree rfl) 3 (by decide) (-1)
    demoTree2 rfl
